import Mathlib

/-!
Verification of the confindent library (src/lib.rs): an indentation-based
configuration format with a parser, a tree builder, a serializer and a typed
value-access layer.

Strings are embedded as `List Char` so that the Rust `str` operations the
code uses (`split`, `trim`, `lines`, `replace`, `starts_with`) can be given
direct recursive definitions and reasoned about by induction.  The embedding
is restricted to ASCII whitespace (the inputs of interest are ASCII); Rust's
`char::is_whitespace` agrees with `isWs` below on all ASCII characters.

Rust's `HashMap<String, ConfSection>` has an arbitrary, unspecified iteration
order.  It is embedded as an association list `ConfHash`; the list order
records one possible iteration order of the hash map.  Statements whose truth
depends on that order are analysed by comparing runs on different orderings
of the same entries (two lists that are permutations of one another describe
the same map contents, and each is a legal iteration order).
-/

set_option linter.unusedVariables false

/-- Character strings, embedded as lists of characters. -/
abbrev Str := List Char

/-- Rust's `char::is_whitespace`, restricted to ASCII: space, tab, newline,
vertical tab, form feed, carriage return. -/
def isWs (c : Char) : Bool :=
  c = ' ' || c = '\t' || c = '\n' || c = '\x0b' || c = '\x0c' || c = '\r'

/-- Rust's `str::trim_start` (drop leading whitespace). -/
def trimStart (s : Str) : Str := s.dropWhile isWs

/-- Rust's `str::trim_end` (drop trailing whitespace). -/
def trimEnd (s : Str) : Str := (s.reverse.dropWhile isWs).reverse

/-- Rust's `str::trim`. -/
def trim (s : Str) : Str := trimEnd (trimStart s)

/-- Rust's `str::split` with a `char`/predicate pattern: split at every
character satisfying `p`, keeping empty pieces between adjacent separators.
The result is always non-empty. -/
def splitChar (p : Char → Bool) : Str → List Str
  | [] => [[]]
  | c :: rest =>
    if p c then [] :: splitChar p rest
    else
      match splitChar p rest with
      | [] => [[c]]
      | piece :: pieces => (c :: piece) :: pieces

/-- Drop a single trailing carriage return, as Rust's `str::lines` does on
each line. -/
def stripCR (l : Str) : Str :=
  match l.reverse with
  | '\r' :: rest => rest.reverse
  | _ => l

/-- Rust's `str::lines`: split at newlines, the final line ending optional,
a trailing `\r` removed from each line. -/
def rustLines (s : Str) : List Str :=
  let parts := splitChar (fun c => c = '\n') s
  let parts :=
    match parts.reverse with
    | [] :: rest => rest.reverse
    | _ => parts
  parts.map stripCR

/-- Join a list of lines with a newline between consecutive lines. -/
def joinNl : List Str → Str
  | [] => []
  | l :: rest =>
    match rest with
    | [] => l
    | _ :: _ => l ++ '\n' :: joinNl rest

/-- The scalar value of a section: `enum ConfItem { Empty, Text(String) }`. -/
inductive ConfItem where
  | Empty : ConfItem
  | Text : Str → ConfItem
  deriving DecidableEq

/-- The `Display` impl for `ConfItem`: `Empty` prints nothing, `Text(s)`
prints `s`. -/
def itemDisplay : ConfItem → Str
  | .Empty => []
  | .Text s => s

/-- The function `ConfItem::parse`: it always produces `Text` of its input. -/
def ConfItem.parse (s : Str) : ConfItem := .Text s

/-- The function `ConfItem::get`: `None` on `Empty`, otherwise the result of
the `FromStr` conversion `conv` on the text.  The conversion for the target
type `T` is passed explicitly as `conv : Str → Option α`. -/
def ConfItem.get (conv : Str → Option α) : ConfItem → Option α
  | .Empty => none
  | .Text s => conv s

/-- The struct `ConfSection { value, indent_level: u8, children: ConfHash }`.
The children map is an association list standing for the Rust `HashMap`
(see the header note on iteration order); `indent_level` is a `Nat` that the
parser keeps below 256, mirroring the `u8` field. -/
inductive ConfSection where
  | mk : ConfItem → Nat → List (Str × ConfSection) → ConfSection

/-- A default section, giving `ConfSection` its `Inhabited` instance. -/
instance : Inhabited ConfSection := ⟨.mk .Empty 0 []⟩

/-- The type alias `ConfHash = HashMap<String, ConfSection>`. -/
abbrev ConfHash := List (Str × ConfSection)

/-- Field accessor for `ConfSection.value`. -/
def ConfSection.value : ConfSection → ConfItem
  | .mk v _ _ => v

/-- Field accessor for `ConfSection.indent_level`. -/
def ConfSection.indent_level : ConfSection → Nat
  | .mk _ l _ => l

/-- Field accessor for `ConfSection.children`. -/
def ConfSection.children : ConfSection → ConfHash
  | .mk _ _ ch => ch

/-- The struct `Confindent { sections: ConfHash }`. -/
structure Confindent where
  sections : ConfHash

/-- Key lookup in a `ConfHash`, as `HashMap::get`. -/
def lookupKey (key : Str) : ConfHash → Option ConfSection
  | [] => none
  | (k, v) :: rest => if k = key then some v else lookupKey key rest

/-- Key insertion in a `ConfHash`, as `HashMap::insert`: replace the entry in
place when the key is present, otherwise add a new entry (recorded at the end
of the list). -/
def hashInsert (key : Str) (v : ConfSection) : ConfHash → ConfHash
  | [] => [(key, v)]
  | (k, w) :: rest =>
    if k = key then (key, v) :: rest else (k, w) :: hashInsert key v rest

/-- The keys of the entries of a `ConfHash`, in list (iteration) order. -/
def hashKeys (h : ConfHash) : List Str := h.map Prod.fst

/-- The indentation loop at the start of `ConfSection::parse`:
`while workable.starts_with('\t') || workable.starts_with("  ")` strip one
tab or exactly two spaces and increment the `u8` counter `indent_level`
(wrapping at 256, Rust release-mode overflow semantics).  Returns the final
counter and the remaining text `workable`. -/
def indentLoop : Str → Nat → Nat × Str
  | '\t' :: rest, d => indentLoop rest ((d + 1) % 256)
  | ' ' :: ' ' :: rest, d => indentLoop rest ((d + 1) % 256)
  | s, d => (d, s)

/-- The function `ConfSection::parse`: `None` on a blank line; otherwise strip
the indentation, split the rest at every whitespace character, take the first
piece as key and the second piece (when present) as the `Text` value. -/
def ConfSection.parse (s : Str) : Option (Str × ConfSection) :=
  if s = [] || trimStart s = [] then none
  else
    let (lvl, workable) := indentLoop s 0
    let split := splitChar isWs workable
    match split.get? 0 with
    | none => none
    | some key =>
      let val : ConfItem :=
        match split.get? 1 with
        | some v => ConfItem.parse v
        | none => ConfItem.Empty
      some (key, .mk val lvl [])

/-- Insertion of a child into a section's children map, the step
`(**sec).children.insert(key, cs)` of `Confindent::add_section`. -/
def ConfSection.insertChild (key : Str) (cs : ConfSection) : ConfSection → ConfSection
  | .mk v l ch => .mk v l (hashInsert key cs ch)

/-- The reverse scan of `Confindent::add_section`: visit the entries of the
top-level map in reverse iteration order (hence: latest entry of the list
first) and attach `cs` into the children of the first visited section whose
`indent_level` is `cs.indent_level - 1`; `none` when no entry qualifies. -/
def attachLast (key : Str) (cs : ConfSection) : ConfHash → Option ConfHash
  | [] => none
  | (k, sec) :: rest =>
    match attachLast key cs rest with
    | some rest' => some ((k, sec) :: rest')
    | none =>
      if sec.indent_level = cs.indent_level - 1 then
        some ((k, ConfSection.insertChild key cs sec) :: rest)
      else
        none

/-- The function `Confindent::add_section`: top-level insert when the document
is empty or the event has depth 0; otherwise attach under the most recently
iterated top-level section of depth one less, falling back to a top-level
insert when none exists. -/
def Confindent.add_section (doc : Confindent) (key : Str) (cs : ConfSection) :
    Confindent :=
  if doc.sections.isEmpty || cs.indent_level = 0 then
    ⟨hashInsert key cs doc.sections⟩
  else
    match attachLast key cs doc.sections with
    | some secs => ⟨secs⟩
    | none => ⟨hashInsert key cs doc.sections⟩

/-- The function `Confindent::from_str`: the empty document on empty or
all-whitespace input, otherwise fold `add_section` over the parse events of
the lines.  The Rust function always returns `Ok` (its error type is never
produced), so the embedding is total. -/
def Confindent.from_str (s : Str) : Confindent :=
  if s = [] || trimStart s = [] then ⟨[]⟩
  else
    (rustLines s).foldl
      (fun doc line =>
        match ConfSection.parse line with
        | some kv => doc.add_section kv.1 kv.2
        | none => doc)
      ⟨[]⟩

/-- Rust's `str::replace('\n', "\n\t")`, used by the serializer to indent
every line of a child's rendering by one extra tab. -/
def replaceNl : Str → Str
  | [] => []
  | c :: rest =>
    if c = '\n' then '\n' :: '\t' :: replaceNl rest else c :: replaceNl rest

mutual

/-- The function `ConfSection::into_string`: `"<key> <value>"` followed by,
for each child in iteration order, a newline, a tab, and the child's own
rendering with each of its newlines replaced by newline-tab. -/
def ConfSection.into_string : ConfSection → Str → Str
  | .mk v _ ch, key => key ++ ' ' :: itemDisplay v ++ childrenString ch

/-- The child loop of `ConfSection::into_string`. -/
def childrenString : List (Str × ConfSection) → Str
  | [] => []
  | (k, c) :: rest =>
    ('\n' :: '\t' :: replaceNl (ConfSection.into_string c k)) ++
      childrenString rest

end

/-- The impl `Into<String> for Confindent`: prepend a newline to each
top-level section's rendering, concatenate in iteration order, and trim the
result. -/
def Confindent.into_string (doc : Confindent) : Str :=
  trim (doc.sections.foldl
    (fun ret kc => ret ++ '\n' :: ConfSection.into_string kc.2 kc.1) [])

/-- The `FromStr` conversion for `String` itself, which never fails; used by
`get_vec`'s internal `get::<String>()`. -/
def stringFromStr (s : Str) : Option Str := some s

/-- The function `ConfSection::get_value` (and its shorthand `get`): convert
the section's scalar through the target type's `FromStr` conversion. -/
def ConfSection.get_value (conv : Str → Option α) (sec : ConfSection) :
    Option α :=
  sec.value.get conv

/-- Collect a list of `Option`s into an `Option` of a list, `none` when any
element is `none`: Rust's `collect::<Result<Vec<T>, _>>().ok()`. -/
def optionsAll : List (Option α) → Option (List α)
  | [] => some []
  | none :: _ => none
  | some a :: rest =>
    match optionsAll rest with
    | none => none
    | some l => some (a :: l)

/-- The function `ConfSection::get_vec`: take the scalar as a `String`
(never fails on `Text`), split it at every comma, trim each piece, convert
each piece, and keep the list only when every piece converts. -/
def ConfSection.get_vec (conv : Str → Option α) (sec : ConfSection) :
    Option (List α) :=
  match sec.get_value stringFromStr with
  | none => none
  | some x =>
    optionsAll ((splitChar (fun c => c = ',') x).map (fun p => conv (trim p)))

/-- Rust's `<u8 as FromStr>::from_str`: an optional leading plus sign, then
one or more ASCII digits, failing on any other character, an empty digit
string, or a value above 255. -/
def parseU8 (s : Str) : Option Nat :=
  let digits : Str :=
    match s with
    | '+' :: rest => rest
    | _ => s
  if digits = [] then none
  else if digits.all (fun c => '0' ≤ c && c ≤ '9') then
    let n := digits.foldl (fun acc c => acc * 10 + (c.toNat - '0'.toNat)) 0
    if n ≤ 255 then some n else none
  else none

/-! Spec-side definitions.  These are written from the words of the
specification, not from the code, and the refinement theorems below compare
them with the code-side definitions. -/

/-- Spec-side depth of a line: repeatedly strip one tab or exactly two
spaces from the start, counting one unit per strip, stopping at the first
character matching neither pattern. -/
def unitCount : Str → Nat
  | '\t' :: r => unitCount r + 1
  | ' ' :: ' ' :: r => unitCount r + 1
  | _ => 0

/-- Spec-side remainder of a line after stripping its indentation units. -/
def stripIndent : Str → Str
  | '\t' :: r => stripIndent r
  | ' ' :: ' ' :: r => stripIndent r
  | s => s

/-- Whether a string contains no newline character. -/
def noNl (s : Str) : Bool := s.all (fun c => c ≠ '\n')

mutual

/-- Spec-side rendering of a section as a list of lines: the line
`"<key> <value>"` followed by, for each child in declaration order, the
child's own lines each prefixed by one tab. -/
def specSectionLines : Str → ConfSection → List Str
  | key, .mk v _ ch => (key ++ ' ' :: itemDisplay v) :: specChildrenLines ch

/-- Spec-side rendering of a children map as tab-prefixed lines. -/
def specChildrenLines : List (Str × ConfSection) → List Str
  | [] => []
  | (k, c) :: rest =>
    (specSectionLines k c).map (fun l => '\t' :: l) ++ specChildrenLines rest

end

mutual

/-- No key or value text anywhere in the section contains a newline. -/
def sectionNoNl : ConfSection → Bool
  | .mk v _ ch => noNl (itemDisplay v) && childrenNoNl ch

/-- No key or value text anywhere in the children map contains a newline. -/
def childrenNoNl : List (Str × ConfSection) → Bool
  | [] => true
  | (k, c) :: rest => noNl k && sectionNoNl c && childrenNoNl rest

end

/-- A well-behaved token: non-empty and free of whitespace characters. -/
def goodTok (s : Str) : Bool := !s.isEmpty && s.all (fun c => !isWs c)

/-- Whether a scalar value is `Text` of a well-behaved token. -/
def valueTok : ConfItem → Bool
  | .Empty => false
  | .Text w => goodTok w

/-- A flat child entry as produced by parsing one tab-indented line: a
well-behaved key, a `Text` value with a well-behaved text, depth 1, and no
children of its own. -/
def flatChild (p : Str × ConfSection) : Bool :=
  goodTok p.1 && valueTok p.2.value && (p.2.indent_level == 1) &&
    p.2.children.isEmpty

/-- The serialized line of a flat child entry: a tab, the key, a space, the
value text. -/
def childLineOf (p : Str × ConfSection) : Str :=
  '\t' :: (p.1 ++ ' ' :: itemDisplay p.2.value)

/-- The keys of the children of the section stored at `key`, used to observe
where the builder attached an event. -/
def childKeysAt (doc : Confindent) (key : Str) : Option (List Str) :=
  (lookupKey key doc.sections).map (fun s => hashKeys s.children)

/-- The scalar value of the section stored at `key`. -/
def valueAt (doc : Confindent) (key : Str) : Option ConfItem :=
  (lookupKey key doc.sections).map ConfSection.value

/-- The stored indentation level of the section produced by parsing a line. -/
def levelOfParse (s : Str) : Option Nat :=
  (ConfSection.parse s).map (fun p => p.2.indent_level)

/-! Helper lemmas. -/

theorem indentLoop_eq : ∀ (s : Str) (d : Nat), d < 256 →
    indentLoop s d = ((d + unitCount s) % 256, stripIndent s) := by
  intro s d
  induction s, d using indentLoop.induct with
  | case1 rest d ih =>
    intro hd
    have hd1 : (d + 1) % 256 < 256 := Nat.mod_lt _ (by omega)
    have := ih hd1
    rw [show indentLoop ('\t' :: rest) d = indentLoop rest ((d + 1) % 256) from rfl,
      this]
    rw [show unitCount ('\t' :: rest) = unitCount rest + 1 from rfl,
      show stripIndent ('\t' :: rest) = stripIndent rest from rfl]
    simp only [Prod.mk.injEq, and_true]
    omega
  | case2 rest d ih =>
    intro hd
    have hd1 : (d + 1) % 256 < 256 := Nat.mod_lt _ (by omega)
    have := ih hd1
    rw [show indentLoop (' ' :: ' ' :: rest) d = indentLoop rest ((d + 1) % 256) from rfl,
      this]
    rw [show unitCount (' ' :: ' ' :: rest) = unitCount rest + 1 from rfl,
      show stripIndent (' ' :: ' ' :: rest) = stripIndent rest from rfl]
    simp only [Prod.mk.injEq, and_true]
    omega
  | case3 s d h1 h2 =>
    intro hd
    have e1 : indentLoop s d = (d, s) := by
      unfold indentLoop
      split
      · exact absurd rfl (fun h => h1 _ h)
      · exact absurd rfl (fun h => h2 _ h)
      · rfl
    have e2 : unitCount s = 0 := by
      unfold unitCount
      split
      · exact absurd rfl (fun h => h1 _ h)
      · exact absurd rfl (fun h => h2 _ h)
      · rfl
    have e3 : stripIndent s = s := by
      unfold stripIndent
      split
      · exact absurd rfl (fun h => h1 _ h)
      · exact absurd rfl (fun h => h2 _ h)
      · rfl
    rw [e1, e2, e3, Nat.add_zero, Nat.mod_eq_of_lt hd]

theorem splitChar_ne_nil (p : Char → Bool) (s : Str) : splitChar p s ≠ [] := by
  cases s with
  | nil => simp [splitChar]
  | cons c rest =>
    unfold splitChar
    split
    · simp
    · split
      · simp
      · simp

theorem splitChar_cons_sep (p : Char → Bool) (c : Char) (rest : Str)
    (h : p c = true) : splitChar p (c :: rest) = [] :: splitChar p rest := by
  conv_lhs => unfold splitChar
  rw [h]
  simp

theorem splitChar_cons_clean (p : Char → Bool) (c : Char) (rest : Str)
    (h : p c = false) :
    splitChar p (c :: rest) = (splitChar p rest).modifyHead (c :: ·) := by
  conv_lhs => unfold splitChar
  rw [h]
  simp only [Bool.false_eq_true, if_false]
  rcases he : splitChar p rest with _ | ⟨piece, pieces⟩
  · exact absurd he (splitChar_ne_nil p rest)
  · simp [List.modifyHead]

theorem splitChar_append_clean (p : Char → Bool) (x rest : Str)
    (h : ∀ c ∈ x, p c = false) :
    splitChar p (x ++ rest) = (splitChar p rest).modifyHead (x ++ ·) := by
  induction x with
  | nil =>
    rcases he : splitChar p rest with _ | ⟨piece, pieces⟩
    · exact absurd he (splitChar_ne_nil p rest)
    · simp [he, List.modifyHead]
  | cons c x ih =>
    have hc : p c = false := h c (by simp)
    rw [List.cons_append, splitChar_cons_clean p c (x ++ rest) hc,
      ih (fun d hd => h d (by simp [hd]))]
    rcases he : splitChar p rest with _ | ⟨piece, pieces⟩
    · exact absurd he (splitChar_ne_nil p rest)
    · simp [List.modifyHead]

theorem splitChar_clean (p : Char → Bool) (s : Str)
    (h : ∀ c ∈ s, p c = false) : splitChar p s = [s] := by
  have := splitChar_append_clean p s [] h
  simpa [splitChar, List.modifyHead] using this

theorem splitChar_structure (p : Char → Bool) (r : Str) :
    splitChar p r =
      r.takeWhile (fun c => !p c) ::
        (match r.dropWhile (fun c => !p c) with
         | [] => []
         | _ :: t => splitChar p t) := by
  induction r with
  | nil => simp [splitChar]
  | cons c rest ih =>
    by_cases hc : p c = true
    · rw [splitChar_cons_sep p c rest hc]
      simp [List.takeWhile_cons, List.dropWhile_cons, hc]
    · have hc2 : p c = false := by simpa using hc
      rw [splitChar_cons_clean p c rest hc2, ih]
      simp [List.takeWhile_cons, List.dropWhile_cons, hc2, List.modifyHead]

theorem joinNl_cons (l : Str) (rest : List Str) (h : rest ≠ []) :
    joinNl (l :: rest) = l ++ '\n' :: joinNl rest := by
  unfold joinNl
  cases rest with
  | nil => exact absurd rfl h
  | cons a t => rfl

theorem noNl_chars {l : Str} (h : noNl l = true) :
    ∀ c ∈ l, (fun c => (c = '\n' : Bool)) c = false := by
  intro c hc
  simp only [noNl, List.all_eq_true, decide_eq_true_eq] at h
  simpa using h c hc

theorem splitNl_joinNl (ls : List Str) (hne : ls ≠ [])
    (h : ∀ l ∈ ls, noNl l = true) :
    splitChar (fun c => c = '\n') (joinNl ls) = ls := by
  induction ls with
  | nil => exact absurd rfl hne
  | cons l rest ih =>
    have hl := noNl_chars (h l (by simp))
    cases rest with
    | nil => simpa [joinNl] using splitChar_clean _ l hl
    | cons a t =>
      rw [joinNl_cons l (a :: t) (by simp),
        splitChar_append_clean _ l _ hl,
        splitChar_cons_sep _ '\n' _ (by simp),
        ih (by simp) (fun x hx => h x (by simp [hx]))]
      simp [List.modifyHead]

theorem stripCR_eq_self (l : Str) (h : ∀ c ∈ l, c ≠ '\r') : stripCR l = l := by
  unfold stripCR
  split
  · rename_i rest he
    have hm : '\r' ∈ l := by
      have : '\r' ∈ l.reverse := by rw [he]; simp
      simpa using this
    exact absurd rfl (h '\r' hm)
  · rfl

theorem rustLines_joinNl (ls : List Str) (hne : ls ≠ [])
    (h : ∀ l ∈ ls, noNl l = true)
    (hcr : ∀ l ∈ ls, ∀ c ∈ l, c ≠ '\r')
    (hnil : [] ∉ ls) :
    rustLines (joinNl ls) = ls := by
  unfold rustLines
  simp only
  rw [splitNl_joinNl ls hne h]
  have hmatch :
      (match ls.reverse with
       | [] :: rest => rest.reverse
       | _ => ls) = ls := by
    split
    · rename_i rest he
      have : ([] : Str) ∈ ls.reverse := by rw [he]; simp
      exact absurd (by simpa using this) hnil
    · rfl
  rw [hmatch]
  rw [List.map_congr_left (fun l hl => stripCR_eq_self l (hcr l hl))]
  exact List.map_id _

theorem trimStart_cons_ws (c : Char) (s : Str) (h : isWs c = true) :
    trimStart (c :: s) = trimStart s := by
  simp [trimStart, List.dropWhile_cons, h]

theorem trimStart_cons_nonws (c : Char) (s : Str) (h : isWs c = false) :
    trimStart (c :: s) = c :: s := by
  simp [trimStart, List.dropWhile_cons, h]

theorem trim_cons_ws (c : Char) (s : Str) (h : isWs c = true) :
    trim (c :: s) = trim s := by
  simp [trim, trimStart_cons_ws c s h]

theorem trimEnd_eq_self (s : Str)
    (h : ∀ b, s.getLast? = some b → isWs b = false) : trimEnd s = s := by
  unfold trimEnd
  cases hr : s.reverse with
  | nil =>
    have : s = [] := by simpa using congrArg List.reverse hr
    simp [this]
  | cons b t =>
    have hb : s.getLast? = some b := by
      have : s = (b :: t).reverse := by rw [← hr, List.reverse_reverse]
      rw [this]
      simp [List.getLast?_concat]
    rw [List.dropWhile_cons, h b hb]
    simp [← hr]

theorem trim_eq_self (a : Char) (t : Str) (ha : isWs a = false)
    (h : ∀ b, (a :: t).getLast? = some b → isWs b = false) :
    trim (a :: t) = a :: t := by
  rw [trim, trimStart_cons_nonws a t ha, trimEnd_eq_self _ h]

theorem joinNl_getLast? (ls : List Str) (hne : ls ≠ [])
    (hnil : [] ∉ ls) :
    ∃ ll, ll ∈ ls ∧ (joinNl ls).getLast? = ll.getLast? := by
  induction ls with
  | nil => exact absurd rfl hne
  | cons l rest ih =>
    cases rest with
    | nil => exact ⟨l, by simp, by simp [joinNl]⟩
    | cons a t =>
      obtain ⟨ll, hmem, heq⟩ := ih (by simp) (by
        intro hc
        exact hnil (by simp [hc]))
      refine ⟨ll, by simp [hmem], ?_⟩
      have hll : ll ≠ [] := by
        intro hc
        rw [hc] at hmem
        exact hnil (by simp [hmem])
      obtain ⟨L, b, hLb⟩ := (List.eq_nil_or_concat ll).resolve_left hll
      have hlast : ll.getLast? = some b := by
        rw [hLb, List.concat_eq_append, List.getLast?_concat]
      rw [joinNl_cons l (a :: t) (by simp), List.getLast?_append,
        show ('\n' :: joinNl (a :: t)) = ['\n'] ++ joinNl (a :: t) from rfl,
        List.getLast?_append, heq, hlast]
      simp

theorem replaceNl_cons (c : Char) (s : Str) :
    replaceNl (c :: s) =
      (if c = '\n' then ['\n', '\t'] else [c]) ++ replaceNl s := by
  conv_lhs => unfold replaceNl
  by_cases hc : c = '\n' <;> simp [hc]

theorem replaceNl_eq_self (s : Str) (h : noNl s = true) : replaceNl s = s := by
  induction s with
  | nil => rfl
  | cons c rest ih =>
    have hc : c ≠ '\n' := by
      simp only [noNl, List.all_eq_true, decide_eq_true_eq] at h
      exact h c (by simp)
    have hrest : noNl rest = true := by
      simp only [noNl, List.all_eq_true] at h ⊢
      exact fun x hx => h x (by simp [hx])
    rw [replaceNl_cons, if_neg hc, ih hrest]
    simp

theorem replaceNl_append (a b : Str) :
    replaceNl (a ++ b) = replaceNl a ++ replaceNl b := by
  induction a with
  | nil => rfl
  | cons c rest ih =>
    rw [List.cons_append, replaceNl_cons, replaceNl_cons, ih, List.append_assoc]

theorem replaceNl_joinNl (ls : List Str) (hne : ls ≠ [])
    (h : ∀ l ∈ ls, noNl l = true) :
    '\n' :: '\t' :: replaceNl (joinNl ls) =
      '\n' :: joinNl (ls.map (fun l => '\t' :: l)) := by
  induction ls with
  | nil => exact absurd rfl hne
  | cons l rest ih =>
    cases rest with
    | nil => simp [joinNl, replaceNl_eq_self l (h l (by simp))]
    | cons a t =>
      have htail := ih (by simp) (fun x hx => h x (by simp [hx]))
      have h2 : '\t' :: replaceNl (joinNl (a :: t)) =
          joinNl ((a :: t).map (fun l => '\t' :: l)) := by
        have := congrArg List.tail htail
        simpa using this
      rw [joinNl_cons l (a :: t) (by simp), replaceNl_append,
        replaceNl_eq_self l (h l (by simp)), replaceNl_cons, if_pos rfl,
        List.map_cons, joinNl_cons ('\t' :: l) _ (by simp)]
      simp only [List.cons_append, List.append_assoc, List.nil_append]
      rw [← h2]

theorem hashInsert_not_mem (key : Str) (v : ConfSection) (h : ConfHash)
    (hk : key ∉ hashKeys h) : hashInsert key v h = h ++ [(key, v)] := by
  induction h with
  | nil => rfl
  | cons kv rest ih =>
    obtain ⟨k, w⟩ := kv
    have hne : k ≠ key := by
      intro hc
      exact hk (by simp [hashKeys, hc])
    unfold hashInsert
    rw [if_neg hne, ih (fun hc => hk (by simp [hashKeys] at hc ⊢; exact Or.inr hc))]
    simp

theorem lookupKey_hashInsert_self (key : Str) (v : ConfSection) (h : ConfHash) :
    lookupKey key (hashInsert key v h) = some v := by
  induction h with
  | nil => simp [hashInsert, lookupKey]
  | cons kv rest ih =>
    obtain ⟨k, w⟩ := kv
    unfold hashInsert
    by_cases hk : k = key
    · rw [if_pos hk]
      simp [lookupKey]
    · rw [if_neg hk]
      unfold lookupKey
      rw [if_neg hk]
      exact ih

theorem attachLast_none (key : Str) (cs : ConfSection) (h : ConfHash)
    (hno : ∀ p ∈ h, p.2.indent_level ≠ cs.indent_level - 1) :
    attachLast key cs h = none := by
  induction h with
  | nil => rfl
  | cons kv rest ih =>
    obtain ⟨k, sec⟩ := kv
    unfold attachLast
    rw [ih (fun p hp => hno p (by simp [hp]))]
    simp only
    rw [if_neg (hno (k, sec) (by simp))]

theorem attachLast_singleton (key : Str) (cs : ConfSection) (k : Str)
    (sec : ConfSection) (hl : sec.indent_level = cs.indent_level - 1) :
    attachLast key cs [(k, sec)] =
      some [(k, ConfSection.insertChild key cs sec)] := by
  unfold attachLast
  simp only [attachLast]
  rw [if_pos hl]

theorem optionsAll_eq_some_iff (l : List (Option α)) (r : List α) :
    optionsAll l = some r ↔ l = r.map some := by
  induction l generalizing r with
  | nil =>
    cases r <;> simp [optionsAll]
  | cons o rest ih =>
    cases o with
    | none =>
      simp only [optionsAll]
      constructor
      · intro hc
        exact absurd hc (by simp)
      · intro hc
        cases r with
        | nil => simp at hc
        | cons a t => simp at hc
    | some a =>
      cases r with
      | nil =>
        simp only [optionsAll, List.map_nil]
        constructor
        · intro hc
          rcases he : optionsAll rest with _ | l2 <;> rw [he] at hc <;> simp at hc
        · intro hc
          simp at hc
      | cons b t =>
        simp only [optionsAll, List.map_cons]
        constructor
        · intro hc
          rcases he : optionsAll rest with _ | l2 <;> rw [he] at hc
          · simp at hc
          · simp only [Option.some.injEq] at hc
            obtain ⟨h1, h2⟩ := List.cons.inj hc
            subst h1
            have := (ih t).1 (by rw [he, ← h2])
            simp [this]
        · intro hc
          obtain ⟨h1, h2⟩ := List.cons.inj hc
          obtain rfl : a = b := by simpa using h1
          rw [(ih t).2 h2]
      
theorem optionsAll_eq_none_iff (l : List (Option α)) :
    optionsAll l = none ↔ none ∈ l := by
  induction l with
  | nil => simp [optionsAll]
  | cons o rest ih =>
    cases o with
    | none => simp [optionsAll]
    | some a =>
      simp only [optionsAll]
      rcases he : optionsAll rest with _ | l2 <;> rw [he] at ih
      · simpa using ih.1 rfl
      · simp only [List.mem_cons] at ih ⊢
        constructor
        · intro hc
          exact absurd hc (by simp)
        · intro hc
          rcases hc with hc | hc
          · exact absurd hc.symm (by simp)
          · exact absurd (ih.2 hc) (by simp)

theorem joinNl_append (ls1 ls2 : List Str) (h1 : ls1 ≠ []) (h2 : ls2 ≠ []) :
    joinNl (ls1 ++ ls2) = joinNl ls1 ++ '\n' :: joinNl ls2 := by
  induction ls1 with
  | nil => exact absurd rfl h1
  | cons l rest ih =>
    cases rest with
    | nil =>
      cases ls2 with
      | nil => exact absurd rfl h2
      | cons b t =>
        rw [show ([l] ++ b :: t) = l :: (b :: t) from rfl,
          joinNl_cons l (b :: t) (by simp)]
        rfl
    | cons a t =>
      rw [show ((l :: a :: t) ++ ls2) = l :: ((a :: t) ++ ls2) from rfl,
        joinNl_cons l ((a :: t) ++ ls2) (by simp),
        joinNl_cons l (a :: t) (by simp), ih (by simp)]
      simp

mutual

theorem intoString_eq_joinNl (s : ConfSection) (key : Str)
    (hkey : noNl key = true) (hs : sectionNoNl s = true) :
    ConfSection.into_string s key = joinNl (specSectionLines key s) ∧
    specSectionLines key s ≠ [] ∧
    (∀ l ∈ specSectionLines key s, noNl l = true) ∧
    [] ∉ specSectionLines key s := by
  obtain ⟨v, lvl, ch⟩ := s
  have hv : noNl (itemDisplay v) = true := by
    simp only [sectionNoNl, Bool.and_eq_true] at hs
    exact hs.1
  have hch : childrenNoNl ch = true := by
    simp only [sectionNoNl, Bool.and_eq_true] at hs
    exact hs.2
  have hB := childrenString_eq_joinNl ch hch
  have hline0 : noNl (key ++ ' ' :: itemDisplay v) = true := by
    simp only [noNl, List.all_eq_true] at hkey hv ⊢
    intro c hc
    rcases List.mem_append.1 hc with hc | hc
    · exact hkey c hc
    · rcases List.mem_cons.1 hc with hc | hc
      · simp [hc]
      · exact hv c hc
  have hline0ne : key ++ ' ' :: itemDisplay v ≠ [] := by simp
  constructor
  · show key ++ ' ' :: itemDisplay v ++ childrenString ch = _
    rcases hsp : specChildrenLines ch with _ | ⟨a, t⟩
    · have hB1 : childrenString ch = [] := by
        rw [hsp] at hB
        simpa using hB.1
      rw [hB1]
      simp [specSectionLines, hsp, joinNl]
    · have hB1 : childrenString ch = '\n' :: joinNl (a :: t) := by
        rw [hsp] at hB
        simpa using hB.1
      rw [hB1]
      show _ = joinNl ((key ++ ' ' :: itemDisplay v) :: specChildrenLines ch)
      rw [hsp, joinNl_cons _ (a :: t) (by simp)]
      try simp [List.cons_append, List.append_assoc]
  · refine ⟨by simp [specSectionLines], ?_, ?_⟩
    · intro l hl
      simp only [specSectionLines, List.mem_cons] at hl
      rcases hl with hl | hl
      · rw [hl]; exact hline0
      · exact hB.2.1 l hl
    · simp only [specSectionLines, List.mem_cons]
      intro hc
      rcases hc with hc | hc
      · exact hline0ne hc.symm
      · exact hB.2.2 hc

theorem childrenString_eq_joinNl (ch : List (Str × ConfSection))
    (hch : childrenNoNl ch = true) :
    (childrenString ch =
      if specChildrenLines ch = [] then []
      else '\n' :: joinNl (specChildrenLines ch)) ∧
    (∀ l ∈ specChildrenLines ch, noNl l = true) ∧
    [] ∉ specChildrenLines ch := by
  match ch with
  | [] => exact ⟨by simp [childrenString, specChildrenLines], by simp [specChildrenLines], by simp [specChildrenLines]⟩
  | (k, c) :: rest =>
    have hk : noNl k = true := by
      simp only [childrenNoNl, Bool.and_eq_true] at hch
      exact hch.1.1
    have hc : sectionNoNl c = true := by
      simp only [childrenNoNl, Bool.and_eq_true] at hch
      exact hch.1.2
    have hrest : childrenNoNl rest = true := by
      simp only [childrenNoNl, Bool.and_eq_true] at hch
      exact hch.2
    have hA := intoString_eq_joinNl c k hk hc
    have hB := childrenString_eq_joinNl rest hrest
    have hmapNoNl : ∀ l ∈ (specSectionLines k c).map (fun l => '\t' :: l),
        noNl l = true := by
      intro l hl
      obtain ⟨l0, hl0, rfl⟩ := List.mem_map.1 hl
      have := hA.2.2.1 l0 hl0
      simp only [noNl, List.all_eq_true] at this ⊢
      intro x hx
      rcases List.mem_cons.1 hx with hx | hx
      · simp [hx]
      · exact this x hx
    have hmapne : (specSectionLines k c).map (fun l => '\t' :: l) ≠ [] := by
      simp [hA.2.1]
    have hstep : childrenString ((k, c) :: rest) =
        ('\n' :: joinNl ((specSectionLines k c).map (fun l => '\t' :: l))) ++
          childrenString rest := by
      show ('\n' :: '\t' :: replaceNl (ConfSection.into_string c k)) ++
          childrenString rest = _
      rw [hA.1, replaceNl_joinNl _ hA.2.1 hA.2.2.1]
    have hspec : specChildrenLines ((k, c) :: rest) =
        (specSectionLines k c).map (fun l => '\t' :: l) ++
          specChildrenLines rest := rfl
    refine ⟨?_, ?_, ?_⟩
    · rw [hstep, hspec]
      rcases hsp : specChildrenLines rest with _ | ⟨a, t⟩
      · have hB1 : childrenString rest = [] := by
          rw [hsp] at hB
          simpa using hB.1
        rw [hB1]
        rw [if_neg (by simp [hA.2.1])]
        simp
      · have hB1 : childrenString rest = '\n' :: joinNl (a :: t) := by
          rw [hsp] at hB
          simpa using hB.1
        rw [hB1]
        rw [if_neg (by simp [hA.2.1])]
        rw [joinNl_append _ (a :: t) hmapne (by simp)]
        simp
    · intro l hl
      rw [hspec] at hl
      rcases List.mem_append.1 hl with hl | hl
      · exact hmapNoNl l hl
      · exact hB.2.1 l hl
    · rw [hspec]
      intro hcon
      rcases List.mem_append.1 hcon with hcon | hcon
      · obtain ⟨l0, _, he⟩ := List.mem_map.1 hcon
        exact absurd he (by simp)
      · exact hB.2.2 hcon

end

theorem goodTok_shape {s : Str} (h : goodTok s = true) :
    ∃ a t, s = a :: t := by
  cases s with
  | nil => simp [goodTok] at h
  | cons a t => exact ⟨a, t, rfl⟩

theorem goodTok_chars {s : Str} (h : goodTok s = true) :
    ∀ c ∈ s, isWs c = false := by
  simp only [goodTok, Bool.and_eq_true, List.all_eq_true] at h
  intro c hc
  simpa using h.2 c hc

theorem goodTok_noNl {s : Str} (h : goodTok s = true) : noNl s = true := by
  simp only [noNl, List.all_eq_true, decide_eq_true_eq]
  intro c hc
  intro hcon
  have := goodTok_chars h c hc
  rw [hcon] at this
  simp [isWs] at this

theorem goodTok_noCR {s : Str} (h : goodTok s = true) :
    ∀ c ∈ s, c ≠ '\r' := by
  intro c hc hcon
  have := goodTok_chars h c hc
  rw [hcon] at this
  simp [isWs] at this

theorem indentLoop_nonunit (c : Char) (r : Str) (d : Nat)
    (hc : isWs c = false) : indentLoop (c :: r) d = (d, c :: r) := by
  have ht : c ≠ '\t' := by
    intro hcon
    rw [hcon] at hc
    simp [isWs] at hc
  have hsp : c ≠ ' ' := by
    intro hcon
    rw [hcon] at hc
    simp [isWs] at hc
  unfold indentLoop
  split
  · rename_i rest heq
    exact absurd (List.cons.inj heq).1 ht
  · rename_i rest heq
    exact absurd (List.cons.inj heq).1 hsp
  · rfl

theorem splitChar_tok_pair (k v : Str) (hk : ∀ c ∈ k, isWs c = false)
    (hv : ∀ c ∈ v, isWs c = false) :
    splitChar isWs (k ++ ' ' :: v) = [k, v] := by
  rw [splitChar_append_clean isWs k (' ' :: v) hk,
    splitChar_cons_sep isWs ' ' v (by simp [isWs]),
    splitChar_clean isWs v hv]
  simp [List.modifyHead]

theorem parse_notblank (s : Str) (a : Char) (t : Str) (hs : s = a :: t)
    (ha : isWs a = false) :
    ConfSection.parse s =
      (let lw := indentLoop s 0
       let split := splitChar isWs lw.2
       match split.get? 0 with
       | none => none
       | some key =>
         some (key,
           ConfSection.mk
             (match split.get? 1 with
              | some v => ConfItem.parse v
              | none => ConfItem.Empty) lw.1 [])) := by
  subst hs
  unfold ConfSection.parse
  rw [if_neg (by simp [trimStart_cons_nonws a t ha])]

theorem parse_flat_line (k v : Str) (hk : goodTok k = true)
    (hv : goodTok v = true) :
    ConfSection.parse (k ++ ' ' :: v) =
      some (k, .mk (.Text v) 0 []) := by
  obtain ⟨a, t, hkshape⟩ := goodTok_shape hk
  have ha : isWs a = false := goodTok_chars hk a (by simp [hkshape])
  rw [parse_notblank (k ++ ' ' :: v) a (t ++ ' ' :: v) (by simp [hkshape]) ha]
  have hil : indentLoop (k ++ ' ' :: v) 0 = (0, k ++ ' ' :: v) := by
    rw [hkshape, List.cons_append]
    exact indentLoop_nonunit a (t ++ ' ' :: v) 0 ha
  rw [hil]
  simp only
  rw [splitChar_tok_pair k v (goodTok_chars hk) (goodTok_chars hv)]
  rfl

theorem parse_child_line (k w : Str) (hk : goodTok k = true)
    (hw : goodTok w = true) :
    ConfSection.parse ('\t' :: (k ++ ' ' :: w)) =
      some (k, .mk (.Text w) 1 []) := by
  obtain ⟨a, t, hkshape⟩ := goodTok_shape hk
  have ha : isWs a = false := goodTok_chars hk a (by simp [hkshape])
  have hblank : trimStart ('\t' :: (k ++ ' ' :: w)) ≠ [] := by
    rw [trimStart_cons_ws '\t' _ (by simp [isWs]), hkshape,
      List.cons_append, trimStart_cons_nonws a _ ha]
    simp
  unfold ConfSection.parse
  rw [if_neg (by simp [hblank])]
  have hil : indentLoop ('\t' :: (k ++ ' ' :: w)) 0 = (1, k ++ ' ' :: w) := by
    rw [show indentLoop ('\t' :: (k ++ ' ' :: w)) 0
        = indentLoop (k ++ ' ' :: w) ((0 + 1) % 256) from rfl]
    norm_num
    rw [hkshape, List.cons_append]
    exact indentLoop_nonunit a (t ++ ' ' :: w) 1 ha
  rw [hil]
  simp only
  rw [splitChar_tok_pair k w (goodTok_chars hk) (goodTok_chars hw)]
  rfl

@[simp] theorem value_mk (v : ConfItem) (l : Nat) (ch : ConfHash) :
    (ConfSection.mk v l ch).value = v := rfl

@[simp] theorem indent_level_mk (v : ConfItem) (l : Nat) (ch : ConfHash) :
    (ConfSection.mk v l ch).indent_level = l := rfl

@[simp] theorem children_mk (v : ConfItem) (l : Nat) (ch : ConfHash) :
    (ConfSection.mk v l ch).children = ch := rfl

theorem flatChild_parts (p : Str × ConfSection) (h : flatChild p = true) :
    ∃ w, p.2 = .mk (.Text w) 1 [] ∧ goodTok p.1 = true ∧ goodTok w = true := by
  obtain ⟨k, c⟩ := p
  obtain ⟨v, l, ch⟩ := c
  simp only [flatChild, Bool.and_eq_true, beq_iff_eq, value_mk,
    indent_level_mk, children_mk, List.isEmpty_iff] at h
  obtain ⟨⟨⟨hk, hvt⟩, hl⟩, hch⟩ := h
  cases v with
  | Empty => simp [valueTok] at hvt
  | Text w =>
    refine ⟨w, ?_, hk, by simpa [valueTok] using hvt⟩
    rw [hl, hch]

theorem add_section_child (key : Str) (tv : ConfItem) (done : ConfHash)
    (k : Str) (c : ConfSection) (hc : c.indent_level = 1) :
    Confindent.add_section ⟨[(key, .mk tv 0 done)]⟩ k c =
      ⟨[(key, .mk tv 0 (hashInsert k c done))]⟩ := by
  unfold Confindent.add_section
  rw [if_neg (by simp [hc])]
  rw [attachLast_singleton k c key (.mk tv 0 done) (by simp [hc])]
  rfl

theorem fold_children_lines (rest : ConfHash) : ∀ (done : ConfHash)
    (key : Str) (tv : ConfItem),
    (∀ p ∈ rest, flatChild p = true) →
    (∀ p ∈ rest, p.1 ∉ hashKeys done) →
    (rest.map Prod.fst).Nodup →
    List.foldl
      (fun (doc : Confindent) (line : Str) =>
        match ConfSection.parse line with
        | some kv => doc.add_section kv.1 kv.2
        | none => doc)
      (⟨[(key, .mk tv 0 done)]⟩ : Confindent) (rest.map childLineOf) =
      (⟨[(key, .mk tv 0 (done ++ rest))]⟩ : Confindent) := by
  induction rest with
  | nil =>
    intro done key tv _ _ _
    simp
  | cons p rest2 ih =>
    intro done key tv hflat hnotin hnd
    obtain ⟨w, hp2, hkp, hwp⟩ := flatChild_parts p (hflat p (by simp))
    have hline : childLineOf p = '\t' :: (p.1 ++ ' ' :: w) := by
      simp [childLineOf, hp2, itemDisplay]
    rw [List.map_cons, List.foldl_cons]
    have hparse := parse_child_line p.1 w hkp hwp
    rw [hline]
    simp only [hparse]
    rw [← hp2]
    rw [add_section_child key tv done p.1 p.2 (by simp [hp2])]
    rw [hashInsert_not_mem p.1 p.2 done (hnotin p (by simp))]
    have hrest2 : ∀ q ∈ rest2, flatChild q = true :=
      fun q hq => hflat q (by simp [hq])
    have hnotin2 : ∀ q ∈ rest2, q.1 ∉ hashKeys (done ++ [(p.1, p.2)]) := by
      intro q hq hcon
      simp only [hashKeys, List.map_append, List.mem_append] at hcon
      rcases hcon with hcon | hcon
      · exact hnotin q (by simp [hq]) hcon
      · simp only [List.map_cons, List.map_nil, List.mem_singleton] at hcon
        rw [List.map_cons, List.nodup_cons] at hnd
        exact hnd.1 (hcon ▸ List.mem_map_of_mem Prod.fst hq)
    have hnd2 : (rest2.map Prod.fst).Nodup := by
      rw [List.map_cons, List.nodup_cons] at hnd
      exact hnd.2
    have := ih (done ++ [(p.1, p.2)]) key tv hrest2 hnotin2 hnd2
    rw [this, List.append_assoc]
    simp

theorem flat_childrenNoNl (ch : ConfHash)
    (h : ∀ p ∈ ch, flatChild p = true) : childrenNoNl ch = true := by
  induction ch with
  | nil => rfl
  | cons p rest ih =>
    obtain ⟨w, hp2, hk, hw⟩ := flatChild_parts p (h p (by simp))
    obtain ⟨pk, pc⟩ := p
    simp only at hp2
    subst hp2
    show (noNl pk && sectionNoNl _ && childrenNoNl rest) = true
    rw [goodTok_noNl hk, ih (fun q hq => h q (by simp [hq]))]
    show (true && (noNl (itemDisplay (.Text w)) && childrenNoNl []) && true) = true
    simp [goodTok_noNl hw, childrenNoNl, itemDisplay]

theorem flat_specChildrenLines (ch : ConfHash)
    (h : ∀ p ∈ ch, flatChild p = true) :
    specChildrenLines ch = ch.map childLineOf := by
  induction ch with
  | nil => rfl
  | cons p rest ih =>
    obtain ⟨w, hp2, hk, hw⟩ := flatChild_parts p (h p (by simp))
    obtain ⟨pk, pc⟩ := p
    simp only at hp2
    subst hp2
    show (specSectionLines pk _).map (fun l => '\t' :: l) ++
        specChildrenLines rest = _
    rw [ih (fun q hq => h q (by simp [hq]))]
    show ((pk ++ ' ' :: itemDisplay (.Text w)) :: specChildrenLines []).map _
        ++ _ = _
    simp [specChildrenLines, childLineOf, itemDisplay]

theorem getLast?_cons_of_ne_nil (c : Char) (r : Str) (h : r ≠ []) :
    (c :: r).getLast? = r.getLast? := by
  cases r with
  | nil => exact absurd rfl h
  | cons a t => exact List.getLast?_cons_cons

theorem tok_line_getLast (k v : Str) (hv : goodTok v = true) :
    ∀ b, (k ++ ' ' :: v).getLast? = some b → isWs b = false := by
  intro b hb
  obtain ⟨a, t, hshape⟩ := goodTok_shape hv
  rw [List.getLast?_append, getLast?_cons_of_ne_nil ' ' v (by simp [hshape])]
    at hb
  have hvlast : ∃ x, v.getLast? = some x := by
    rw [hshape]
    obtain ⟨L, x, hLx⟩ := (List.eq_nil_or_concat (a :: t)).resolve_left (by simp)
    rw [hLx, List.concat_eq_append, List.getLast?_concat]
    exact ⟨x, rfl⟩
  obtain ⟨x, hx⟩ := hvlast
  rw [hx] at hb
  obtain rfl : x = b := by simpa [Option.or] using hb
  exact goodTok_chars hv x (List.mem_of_mem_getLast? hx)

theorem serialize_flat (key v : Str) (children : ConfHash)
    (hk : goodTok key = true) (hv : goodTok v = true)
    (hch : ∀ p ∈ children, flatChild p = true) :
    Confindent.into_string ⟨[(key, .mk (.Text v) 0 children)]⟩ =
      joinNl ((key ++ ' ' :: v) :: children.map childLineOf) := by
  have hsecNoNl : sectionNoNl (.mk (.Text v) 0 children) = true := by
    show (noNl (itemDisplay (.Text v)) && childrenNoNl children) = true
    simp [itemDisplay, goodTok_noNl hv, flat_childrenNoNl children hch]
  have hA := intoString_eq_joinNl (.mk (.Text v) 0 children) key
    (goodTok_noNl hk) hsecNoNl
  have hlines : specSectionLines key (.mk (.Text v) 0 children) =
      (key ++ ' ' :: v) :: children.map childLineOf := by
    show (key ++ ' ' :: itemDisplay (.Text v)) :: specChildrenLines children = _
    rw [flat_specChildrenLines children hch]
    simp [itemDisplay]
  have hrender : ConfSection.into_string (.mk (.Text v) 0 children) key =
      joinNl ((key ++ ' ' :: v) :: children.map childLineOf) := by
    rw [hA.1, hlines]
  show trim (List.foldl _ [] [(key, ConfSection.mk (.Text v) 0 children)]) = _
  rw [List.foldl_cons, List.foldl_nil, List.nil_append, hrender]
  rw [trim_cons_ws '\n' _ (by simp [isWs])]
  obtain ⟨a, t0, hkshape⟩ := goodTok_shape hk
  have ha : isWs a = false := goodTok_chars hk a (by simp [hkshape])
  set lines : List Str := (key ++ ' ' :: v) :: children.map childLineOf with hl
  have hshape2 : ∃ tail, joinNl lines = a :: tail := by
    rcases hc : children.map childLineOf with _ | ⟨cl, cls⟩
    · rw [hl, hc]
      exact ⟨t0 ++ ' ' :: v, by simp [joinNl, hkshape]⟩
    · rw [hl, hc, joinNl_cons _ (cl :: cls) (by simp)]
      exact ⟨t0 ++ ' ' :: v ++ '\n' :: joinNl (cl :: cls), by
        simp [hkshape]⟩
  obtain ⟨tail, htail⟩ := hshape2
  rw [htail]
  refine trim_eq_self a tail ha ?_
  rw [← htail]
  intro b hb
  have hnilnot : [] ∉ lines := by
    rw [hl]
    simp only [List.mem_cons]
    intro hcon
    rcases hcon with hcon | hcon
    · exact absurd hcon.symm (by simp)
    · obtain ⟨q, hq, he⟩ := List.mem_map.1 hcon
      exact absurd he (by simp [childLineOf])
  obtain ⟨ll, hmem, heq⟩ := joinNl_getLast? lines (by simp [hl]) hnilnot
  rw [heq] at hb
  rw [hl] at hmem
  rcases List.mem_cons.1 hmem with hmem | hmem
  · exact tok_line_getLast key v hv b (hmem ▸ hb)
  · obtain ⟨q, hq, he⟩ := List.mem_map.1 hmem
    obtain ⟨w, hp2, hqk, hqw⟩ := flatChild_parts q (hch q hq)
    have hlineq : childLineOf q = '\t' :: (q.1 ++ ' ' :: w) := by
      simp [childLineOf, hp2, itemDisplay]
    rw [← he, hlineq] at hb
    rw [getLast?_cons_of_ne_nil '\t' _ (by simp)] at hb
    exact tok_line_getLast q.1 w hqw b hb

theorem joinNl_cons_shape (a : Char) (t0 : Str) (rest : List Str) :
    ∃ tail, joinNl ((a :: t0) :: rest) = a :: tail := by
  cases rest with
  | nil => exact ⟨t0, by simp [joinNl]⟩
  | cons x xs =>
    rw [joinNl_cons _ (x :: xs) (by simp)]
    exact ⟨t0 ++ '\n' :: joinNl (x :: xs), by simp⟩

theorem add_section_into_empty (k : Str) (c : ConfSection) :
    Confindent.add_section ⟨[]⟩ k c = ⟨[(k, c)]⟩ := rfl

theorem flat_lines_noNl (key v : Str) (children : ConfHash)
    (hk : goodTok key = true) (hv : goodTok v = true)
    (hch : ∀ p ∈ children, flatChild p = true) :
    ∀ l ∈ (key ++ ' ' :: v) :: children.map childLineOf, noNl l = true := by
  intro l hl
  rcases List.mem_cons.1 hl with hl | hl
  · subst hl
    simp only [noNl, List.all_eq_true, decide_eq_true_eq]
    intro c hc hcon
    subst hcon
    rcases List.mem_append.1 hc with hc | hc
    · have := goodTok_chars hk _ hc
      simp [isWs] at this
    · rcases List.mem_cons.1 hc with hc | hc
      · exact absurd hc (by simp)
      · have := goodTok_chars hv _ hc
        simp [isWs] at this
  · obtain ⟨q, hq, he⟩ := List.mem_map.1 hl
    obtain ⟨w, hp2, hqk, hqw⟩ := flatChild_parts q (hch q hq)
    subst he
    simp only [childLineOf, hp2, value_mk, itemDisplay, noNl,
      List.all_eq_true, decide_eq_true_eq]
    intro c hc hcon
    subst hcon
    rcases List.mem_cons.1 hc with hc | hc
    · exact absurd hc (by simp)
    · rcases List.mem_append.1 hc with hc | hc
      · have := goodTok_chars hqk _ hc
        simp [isWs] at this
      · rcases List.mem_cons.1 hc with hc | hc
        · exact absurd hc (by simp)
        · have := goodTok_chars hqw _ hc
          simp [isWs] at this

theorem flat_lines_noCR (key v : Str) (children : ConfHash)
    (hk : goodTok key = true) (hv : goodTok v = true)
    (hch : ∀ p ∈ children, flatChild p = true) :
    ∀ l ∈ (key ++ ' ' :: v) :: children.map childLineOf,
      ∀ c ∈ l, c ≠ '\r' := by
  intro l hl c hc hcon
  subst hcon
  rcases List.mem_cons.1 hl with hl | hl
  · subst hl
    rcases List.mem_append.1 hc with hc | hc
    · have := goodTok_chars hk _ hc
      simp [isWs] at this
    · rcases List.mem_cons.1 hc with hc | hc
      · exact absurd hc (by simp)
      · have := goodTok_chars hv _ hc
        simp [isWs] at this
  · obtain ⟨q, hq, he⟩ := List.mem_map.1 hl
    obtain ⟨w, hp2, hqk, hqw⟩ := flatChild_parts q (hch q hq)
    subst he
    simp only [childLineOf, hp2, value_mk, itemDisplay] at hc
    rcases List.mem_cons.1 hc with hc | hc
    · exact absurd hc (by simp)
    · rcases List.mem_append.1 hc with hc | hc
      · have := goodTok_chars hqk _ hc
        simp [isWs] at this
      · rcases List.mem_cons.1 hc with hc | hc
        · exact absurd hc (by simp)
        · have := goodTok_chars hqw _ hc
          simp [isWs] at this

theorem flat_lines_nonempty (key v : Str) (children : ConfHash) :
    [] ∉ (key ++ ' ' :: v) :: children.map childLineOf := by
  simp only [List.mem_cons]
  intro hcon
  rcases hcon with hcon | hcon
  · exact absurd hcon.symm (by simp)
  · obtain ⟨q, hq, he⟩ := List.mem_map.1 hcon
    exact absurd he (by simp [childLineOf])

/-- C1, counterexample: the Document parsed from the tab-indented input
`"Key\n\tChild"` serializes to `"Key \n\tChild"` (note the trailing space
after `Key`), and re-parsing that text turns the `Empty` value of `Key` into
`Text ""`, so the round trip does not preserve scalar values. -/
theorem C1_round_trip_counterexample :
    valueAt (Confindent.from_str
      ['K', 'e', 'y', '\n', '\t', 'C', 'h', 'i', 'l', 'd'])
      ['K', 'e', 'y'] = some ConfItem.Empty ∧
    valueAt (Confindent.from_str (Confindent.into_string
      (Confindent.from_str
        ['K', 'e', 'y', '\n', '\t', 'C', 'h', 'i', 'l', 'd'])))
      ['K', 'e', 'y'] = some (ConfItem.Text []) ∧
    ConfItem.Empty ≠ ConfItem.Text [] := by
  refine ⟨by decide, by decide, by decide⟩

/-- C1, amended: the round trip `parse(serialize(doc))` reconstructs `doc`
exactly for Documents of the shape the parser itself produces from
well-formed tab-indented input with values present: a single top-level
section at depth 0 with a `Text` value, whose children all sit at depth 1
with `Text` values and no children of their own, where every key and every
value text is non-empty and whitespace-free, and the child keys are distinct.
(The original claim fails: `Empty` values re-parse as `Text ""`, sections
nested two or more levels deep are re-attached at the top level, and with
several top-level sections the hash map's arbitrary iteration order can
re-attach children to the wrong parent.) -/
theorem C1_round_trip_amended (key v : Str) (children : ConfHash)
    (hk : goodTok key = true) (hv : goodTok v = true)
    (hch : ∀ p ∈ children, flatChild p = true)
    (hnd : (children.map Prod.fst).Nodup) :
    Confindent.from_str
      (Confindent.into_string ⟨[(key, .mk (.Text v) 0 children)]⟩) =
      ⟨[(key, .mk (.Text v) 0 children)]⟩ := by
  rw [serialize_flat key v children hk hv hch]
  obtain ⟨a, t0, hkshape⟩ := goodTok_shape hk
  have ha : isWs a = false := goodTok_chars hk a (by simp [hkshape])
  set lines := (key ++ ' ' :: v) :: children.map childLineOf with hlinesdef
  have hne : lines ≠ [] := by simp [hlinesdef]
  have hkeyshape : key ++ ' ' :: v = a :: (t0 ++ ' ' :: v) := by
    rw [hkshape]
    rfl
  obtain ⟨tail, htail⟩ : ∃ tail, joinNl lines = a :: tail := by
    rw [hlinesdef, hkeyshape]
    exact joinNl_cons_shape a (t0 ++ ' ' :: v) (children.map childLineOf)
  unfold Confindent.from_str
  rw [if_neg (by
    rw [htail, trimStart_cons_nonws a tail ha]
    simp)]
  rw [rustLines_joinNl lines hne
    (by rw [hlinesdef] at *; exact flat_lines_noNl key v children hk hv hch)
    (by rw [hlinesdef] at *; exact flat_lines_noCR key v children hk hv hch)
    (by rw [hlinesdef] at *; exact flat_lines_nonempty key v children)]
  rw [hlinesdef, List.foldl_cons]
  simp only [parse_flat_line key v hk hv]
  rw [add_section_into_empty]
  have := fold_children_lines children [] key (.Text v) hch
    (by simp [hashKeys]) hnd
  simpa using this

/-- C1, witness for the amended round-trip theorem at a concrete Document
with one top-level section holding two children. -/
theorem C1_round_trip_amended_witness :
    Confindent.from_str
      (Confindent.into_string
        ⟨[(['H', 'o', 's', 't'],
           .mk (.Text ['x']) 0
             [(['U', 's', 'e', 'r'], .mk (.Text ['u']) 1 []),
              (['P', 'a', 's', 's'], .mk (.Text ['p']) 1 [])])]⟩) =
      ⟨[(['H', 'o', 's', 't'],
         .mk (.Text ['x']) 0
           [(['U', 's', 'e', 'r'], .mk (.Text ['u']) 1 []),
            (['P', 'a', 's', 's'], .mk (.Text ['p']) 1 [])])]⟩ :=
  C1_round_trip_amended ['H', 'o', 's', 't'] ['x']
    [(['U', 's', 'e', 'r'], .mk (.Text ['u']) 1 []),
     (['P', 'a', 's', 's'], .mk (.Text ['p']) 1 [])]
    (by decide) (by decide) (by decide) (by decide)

/-- C2, evidence of the code bug: the top-level sections live in a Rust
`HashMap` whose iteration order is arbitrary.  The two documents below hold
exactly the same entries (the depth-0 sections `First` and `Second`), listed
in the two possible iteration orders.  Attaching the depth-1 event `Child`
puts it under `Second` for one order and under `First` for the other, so the
claimed outcome (always `Second`, deterministically) does not hold of the
code. -/
theorem C2_order_dependence :
    (childKeysAt
        (Confindent.add_section
          ⟨[(['F', 'i', 'r', 's', 't'], .mk .Empty 0 []),
            (['S', 'e', 'c', 'o', 'n', 'd'], .mk .Empty 0 [])]⟩
          ['C', 'h', 'i', 'l', 'd'] (.mk .Empty 1 []))
        ['S', 'e', 'c', 'o', 'n', 'd'] = some [['C', 'h', 'i', 'l', 'd']] ∧
      childKeysAt
        (Confindent.add_section
          ⟨[(['F', 'i', 'r', 's', 't'], .mk .Empty 0 []),
            (['S', 'e', 'c', 'o', 'n', 'd'], .mk .Empty 0 [])]⟩
          ['C', 'h', 'i', 'l', 'd'] (.mk .Empty 1 []))
        ['F', 'i', 'r', 's', 't'] = some []) ∧
    (childKeysAt
        (Confindent.add_section
          ⟨[(['S', 'e', 'c', 'o', 'n', 'd'], .mk .Empty 0 []),
            (['F', 'i', 'r', 's', 't'], .mk .Empty 0 [])]⟩
          ['C', 'h', 'i', 'l', 'd'] (.mk .Empty 1 []))
        ['F', 'i', 'r', 's', 't'] = some [['C', 'h', 'i', 'l', 'd']] ∧
      childKeysAt
        (Confindent.add_section
          ⟨[(['S', 'e', 'c', 'o', 'n', 'd'], .mk .Empty 0 []),
            (['F', 'i', 'r', 's', 't'], .mk .Empty 0 [])]⟩
          ['C', 'h', 'i', 'l', 'd'] (.mk .Empty 1 []))
        ['S', 'e', 'c', 'o', 'n', 'd'] = some []) := by
  refine ⟨⟨by decide, by decide⟩, ⟨by decide, by decide⟩⟩

/-- C5: `add_section` inserts at top level when the event's depth is 0 or
the document is empty; and when the depth is positive but no top-level
section sits at depth one less (a fact independent of the map's iteration
order), it falls back to a plain top-level insert that keeps the event's
depth marker.  The function is total, so attachment never fails. -/
theorem C5_fallback_top_level (doc : Confindent) (key : Str)
    (cs : ConfSection) :
    ((doc.sections = [] ∨ cs.indent_level = 0) →
      doc.add_section key cs = ⟨hashInsert key cs doc.sections⟩) ∧
    (0 < cs.indent_level →
      (∀ p ∈ doc.sections, p.2.indent_level ≠ cs.indent_level - 1) →
      doc.add_section key cs = ⟨hashInsert key cs doc.sections⟩ ∧
        lookupKey key (doc.add_section key cs).sections = some cs) := by
  constructor
  · intro h
    unfold Confindent.add_section
    rw [if_pos (by rcases h with h | h <;> simp [h, List.isEmpty_iff])]
  · intro hlvl hno
    have h1 : doc.add_section key cs = ⟨hashInsert key cs doc.sections⟩ := by
      by_cases hempty : doc.sections = []
      · unfold Confindent.add_section
        rw [if_pos (by simp [hempty, List.isEmpty_iff])]
      · unfold Confindent.add_section
        rw [if_neg (by
          simp only [List.isEmpty_iff, Bool.or_eq_true, decide_eq_true_eq]
          push_neg
          exact ⟨hempty, by omega⟩)]
        rw [attachLast_none key cs doc.sections hno]
    exact ⟨h1, by rw [h1]; exact lookupKey_hashInsert_self key cs doc.sections⟩

/-- C5, witness: a depth-3 event arriving at a document whose only top-level
section has depth 0 is inserted at top level with its depth marker 3 kept. -/
theorem C5_fallback_top_level_witness :
    Confindent.add_section ⟨[(['A'], .mk .Empty 0 [])]⟩ ['B']
        (.mk .Empty 3 []) =
      ⟨hashInsert ['B'] (.mk .Empty 3 [])
        [(['A'], .mk .Empty 0 [])]⟩ ∧
    lookupKey ['B']
        (Confindent.add_section ⟨[(['A'], .mk .Empty 0 [])]⟩ ['B']
          (.mk .Empty 3 [])).sections = some (.mk .Empty 3 []) :=
  (C5_fallback_top_level ⟨[(['A'], .mk .Empty 0 [])]⟩ ['B']
      (.mk .Empty 3 [])).2 (by decide)
    (by
      intro p hp
      rcases List.mem_singleton.1 hp with rfl
      decide)

/-- C6: the parser's indentation loop computes exactly the claimed stripping
recursion: the depth held in the code's 8-bit counter equals the number of
stripped units reduced modulo 256, and the remaining text is the line with
those units removed; one tab or exactly two spaces each count one unit, the
units may be mixed (the two unit equations apply to any remainder), and a
line head matching neither pattern (in particular a single space not
followed by a second space) stops the loop with depth 0. -/
theorem C6_depth_stripping :
    (∀ s : Str, indentLoop s 0 = (unitCount s % 256, stripIndent s)) ∧
    (∀ r : Str, unitCount ('\t' :: r) = unitCount r + 1 ∧
      stripIndent ('\t' :: r) = stripIndent r) ∧
    (∀ r : Str, unitCount (' ' :: ' ' :: r) = unitCount r + 1 ∧
      stripIndent (' ' :: ' ' :: r) = stripIndent r) ∧
    (∀ s : Str, (∀ r, s ≠ '\t' :: r) → (∀ r, s ≠ ' ' :: ' ' :: r) →
      unitCount s = 0 ∧ stripIndent s = s) := by
  refine ⟨fun s => by rw [indentLoop_eq s 0 (by omega), Nat.zero_add],
    fun r => ⟨rfl, rfl⟩,
    fun r => ⟨rfl, rfl⟩, fun s h1 h2 => ⟨?_, ?_⟩⟩
  · unfold unitCount
    split
    · exact absurd rfl (fun h => h1 _ h)
    · exact absurd rfl (fun h => h2 _ h)
    · rfl
  · unfold stripIndent
    split
    · exact absurd rfl (fun h => h1 _ h)
    · exact absurd rfl (fun h => h2 _ h)
    · rfl

/-- C6, witness: a mixed tab and space-pair indentation of a line counts two
units, and an odd single space before a non-space character counts none. -/
theorem C6_depth_stripping_witness :
    indentLoop ['\t', ' ', ' ', 'K'] 0 =
      (unitCount ['\t', ' ', ' ', 'K'] % 256,
        stripIndent ['\t', ' ', ' ', 'K']) ∧
    unitCount [' ', 'X'] = 0 ∧ stripIndent [' ', 'X'] = [' ', 'X'] :=
  ⟨C6_depth_stripping.1 ['\t', ' ', ' ', 'K'],
   (C6_depth_stripping.2.2.2 [' ', 'X']
      (fun r h => absurd (List.cons.inj h).1 (by decide))
      (fun r h => absurd (List.cons.inj (List.cons.inj h).2).1 (by decide))).1,
   (C6_depth_stripping.2.2.2 [' ', 'X']
      (fun r h => absurd (List.cons.inj h).1 (by decide))
      (fun r h => absurd (List.cons.inj (List.cons.inj h).2).1 (by decide))).2⟩

/-- C8: for any target conversion, `get_value` (the function behind `get`)
returns `none` exactly when the section's scalar is `Empty` or the
conversion of the scalar text fails, the two causes yielding the one
indistinguishable result `none`; it returns `some v` exactly when the
scalar is `Text` of a string that converts to `v`. -/
theorem C8_get_uniform_none (α : Type) (conv : Str → Option α)
    (sec : ConfSection) :
    (ConfSection.get_value conv sec = none ↔
      sec.value = .Empty ∨ ∃ s, sec.value = .Text s ∧ conv s = none) ∧
    (∀ v : α, ConfSection.get_value conv sec = some v ↔
      ∃ s, sec.value = .Text s ∧ conv s = some v) := by
  obtain ⟨val, l, ch⟩ := sec
  cases val with
  | Empty => simp [ConfSection.get_value, ConfItem.get]
  | Text s =>
    constructor
    · simp [ConfSection.get_value, ConfItem.get]
    · intro v
      simp [ConfSection.get_value, ConfItem.get]

/-- C8, witness: under the `u8` conversion, a `Text "42"` scalar reads back
as `42`, while both an `Empty` scalar and an unconvertible `Text "x"` read
back as `none`. -/
theorem C8_get_uniform_none_witness :
    ConfSection.get_value parseU8 (.mk (.Text ['4', '2']) 0 []) = some 42 ∧
    ConfSection.get_value parseU8 (.mk .Empty 0 []) = none ∧
    ConfSection.get_value parseU8 (.mk (.Text ['x']) 0 []) = none :=
  ⟨((C8_get_uniform_none Nat parseU8 (.mk (.Text ['4', '2']) 0 [])).2 42).2
      ⟨['4', '2'], by decide, by decide⟩,
   (C8_get_uniform_none Nat parseU8 (.mk .Empty 0 [])).1.2
      (Or.inl (by decide)),
   (C8_get_uniform_none Nat parseU8 (.mk (.Text ['x']) 0 [])).1.2
      (Or.inr ⟨['x'], by decide, by decide⟩)⟩

/-- C9: parsing is total (the embedding returns a Document for every input;
the Rust `from_str` returns `Ok` on every path, its error type never being
produced), and any input consisting solely of whitespace characters — in
particular the empty string and `"   \n\n"` — yields a Document with no
top-level sections. -/
theorem C9_parse_degenerate (s : Str) (h : ∀ c ∈ s, isWs c = true) :
    (Confindent.from_str s).sections = [] := by
  have hts : trimStart s = [] := by
    simp only [trimStart, List.dropWhile_eq_nil_iff]
    exact h
  unfold Confindent.from_str
  rw [if_pos (by simp [hts])]

/-- C9, witness: the empty string and the whitespace-only string
`"   \n\n"` both parse to the empty Document. -/
theorem C9_parse_degenerate_witness :
    (Confindent.from_str []).sections = [] ∧
    (Confindent.from_str [' ', ' ', ' ', '\n', '\n']).sections = [] :=
  ⟨C9_parse_degenerate [] (by decide),
   C9_parse_degenerate [' ', ' ', ' ', '\n', '\n'] (by decide)⟩

theorem parse_level (s k : Str) (sec : ConfSection)
    (h : ConfSection.parse s = some (k, sec)) :
    sec.indent_level = (indentLoop s 0).1 := by
  unfold ConfSection.parse at h
  by_cases hb : (s = [] || trimStart s = []) = true
  · rw [if_pos hb] at h
    exact absurd h (by simp)
  · rw [if_neg hb] at h
    rcases hi : indentLoop s 0 with ⟨lvl, workable⟩
    rw [hi] at h
    simp only at h
    rcases hg : (splitChar isWs workable).get? 0 with _ | key
    · rw [hg] at h
      exact absurd h (by simp)
    · rw [hg] at h
      simp only [Option.some.injEq] at h
      obtain ⟨h1, h2⟩ := Prod.mk.injEq .. ▸ h
      rw [← h2]
      simp [hi]

/-- C10: the line depth is held in the `u8` field `indent_level`: whenever a
line parses, the stored depth is the number of leading indentation units
reduced modulo 256; for at most 255 units this is the unit count itself,
while for 256 or more units the stored depth differs from the true count. -/
theorem C10_depth_u8_wrap (s k : Str) (sec : ConfSection)
    (h : ConfSection.parse s = some (k, sec)) :
    sec.indent_level = unitCount s % 256 ∧
    (unitCount s ≤ 255 → sec.indent_level = unitCount s) ∧
    (256 ≤ unitCount s → sec.indent_level ≠ unitCount s) := by
  have hl := parse_level s k sec h
  rw [indentLoop_eq s 0 (by omega), Nat.zero_add] at hl
  simp only at hl
  refine ⟨hl, ?_, ?_⟩
  · intro hle
    rw [hl, Nat.mod_eq_of_lt (by omega)]
  · intro hge
    rw [hl]
    have : unitCount s % 256 < 256 := Nat.mod_lt _ (by omega)
    omega

theorem unitCount_tabs_key (n : Nat) :
    unitCount (List.replicate n '\t' ++ ['K']) = n ∧
    stripIndent (List.replicate n '\t' ++ ['K']) = ['K'] := by
  induction n with
  | zero =>
    constructor
    · unfold unitCount
      split <;> simp_all
    · unfold stripIndent
      split <;> simp_all
  | succ m ih =>
    rw [List.replicate_succ, List.cons_append]
    exact ⟨by rw [show unitCount ('\t' :: (List.replicate m '\t' ++ ['K']))
        = unitCount (List.replicate m '\t' ++ ['K']) + 1 from rfl, ih.1],
      by rw [show stripIndent ('\t' :: (List.replicate m '\t' ++ ['K']))
        = stripIndent (List.replicate m '\t' ++ ['K']) from rfl, ih.2]⟩

theorem trimStart_tabs_key (n : Nat) :
    trimStart (List.replicate n '\t' ++ ['K']) = ['K'] := by
  induction n with
  | zero => decide
  | succ m ih =>
    rw [List.replicate_succ, List.cons_append,
      trimStart_cons_ws '\t' _ (by simp [isWs]), ih]

theorem parse_tabs_key (n : Nat) :
    ConfSection.parse (List.replicate n '\t' ++ ['K']) =
      some (['K'], .mk .Empty (n % 256) []) := by
  unfold ConfSection.parse
  rw [if_neg (by simp [trimStart_tabs_key n])]
  rw [indentLoop_eq _ 0 (by omega), Nat.zero_add,
    (unitCount_tabs_key n).1, (unitCount_tabs_key n).2]
  simp only
  rw [splitChar_clean isWs ['K'] (by decide)]
  rfl

/-- C10, witness: a line of 256 tabs before its key parses with stored
depth 0, although its true unit count is 256. -/
theorem C10_depth_u8_wrap_witness :
    (ConfSection.mk .Empty 0 []).indent_level =
      unitCount (List.replicate 256 '\t' ++ ['K']) % 256 ∧
    (ConfSection.mk .Empty 0 []).indent_level ≠
      unitCount (List.replicate 256 '\t' ++ ['K']) := by
  have hp : ConfSection.parse (List.replicate 256 '\t' ++ ['K']) =
      some (['K'], .mk .Empty 0 []) := by
    rw [parse_tabs_key 256]
  have h256 : unitCount (List.replicate 256 '\t' ++ ['K']) = 256 :=
    (unitCount_tabs_key 256).1
  exact ⟨(C10_depth_u8_wrap _ ['K'] _ hp).1,
    (C10_depth_u8_wrap _ ['K'] _ hp).2.2 (by rw [h256])⟩

theorem foldl_render (secs : ConfHash) :
    ∀ init : Str,
      List.foldl
        (fun (ret : Str) (kc : Str × ConfSection) =>
          ret ++ '\n' :: ConfSection.into_string kc.2 kc.1) init secs =
      init ++ (secs.map
        (fun kc => '\n' :: ConfSection.into_string kc.2 kc.1)).flatten := by
  induction secs with
  | nil => intro init; simp
  | cons kc rest ih =>
    intro init
    rw [List.foldl_cons, ih, List.map_cons, List.flatten_cons]
    simp

theorem join_map_newline (ls : List Str) (hne : ls ≠ []) :
    (ls.map (fun l => '\n' :: l)).flatten = '\n' :: joinNl ls := by
  induction ls with
  | nil => exact absurd rfl hne
  | cons l rest ih =>
    cases rest with
    | nil => simp [joinNl]
    | cons a t =>
      rw [List.map_cons, List.flatten_cons, ih (by simp),
        joinNl_cons l (a :: t) (by simp)]
      simp

theorem childrenNoNl_mem (ch : ConfHash) (p : Str × ConfSection)
    (hmem : p ∈ ch) (h : childrenNoNl ch = true) :
    noNl p.1 = true ∧ sectionNoNl p.2 = true := by
  induction ch with
  | nil => simp at hmem
  | cons q rest ih =>
    obtain ⟨qk, qc⟩ := q
    have hq : (noNl qk && sectionNoNl qc && childrenNoNl rest) = true := h
    simp only [Bool.and_eq_true] at hq
    rcases List.mem_cons.1 hmem with hmem | hmem
    · subst hmem
      exact ⟨hq.1.1, hq.1.2⟩
    · exact ih hmem hq.2

/-- C3, counterexample: a Document with the two top-level sections `A 1` and
`B 2` serializes to `"A 1\nB 2"`, the renderings separated by a single
newline — not to the blank-line-separated `"A 1\n\nB 2"` the claim
describes. -/
theorem C3_serializer_counterexample :
    Confindent.into_string
      ⟨[(['A'], .mk (.Text ['1']) 0 []),
        (['B'], .mk (.Text ['2']) 0 [])]⟩ =
      ['A', ' ', '1', '\n', 'B', ' ', '2'] ∧
    ['A', ' ', '1', '\n', 'B', ' ', '2'] ≠
      ['A', ' ', '1', '\n', '\n', 'B', ' ', '2'] :=
  ⟨by decide, by decide⟩

/-- C3, amended: for a Document in which no key and no value text contains a
newline, the serializer renders each Section as its key, a space, and its
value text (nothing for `Empty`), each child's lines prefixed by one tab per
nesting level (the spec-side `specSectionLines`), renders the Document as
the top-level sections' renderings separated by a single newline — not a
blank line — and trims leading and trailing whitespace. -/
theorem C3_serializer_amended (doc : Confindent)
    (h : childrenNoNl doc.sections = true) :
    Confindent.into_string doc =
      trim (joinNl (doc.sections.map
        (fun kc => joinNl (specSectionLines kc.1 kc.2)))) := by
  show trim _ = _
  rw [foldl_render doc.sections [], List.nil_append]
  rcases hs : doc.sections with _ | ⟨kc0, rest⟩
  · rfl
  · rw [← hs]
    have hne : doc.sections ≠ [] := by rw [hs]; simp
    have hmap : doc.sections.map
        (fun kc => '\n' :: ConfSection.into_string kc.2 kc.1) =
        (doc.sections.map
          (fun kc => ConfSection.into_string kc.2 kc.1)).map
          (fun l => '\n' :: l) := by
      rw [List.map_map]
      rfl
    rw [hmap, join_map_newline _ (by simp [hne]),
      trim_cons_ws '\n' _ (by simp [isWs])]
    have hcongr : doc.sections.map
        (fun kc => ConfSection.into_string kc.2 kc.1) =
        doc.sections.map
          (fun kc => joinNl (specSectionLines kc.1 kc.2)) := by
      refine List.map_congr_left ?_
      intro p hp
      have hparts := childrenNoNl_mem doc.sections p hp h
      exact (intoString_eq_joinNl p.2 p.1 hparts.1 hparts.2).1
    rw [hcongr]

/-- C3, witness for the amended serializer theorem at a concrete Document
with a nested child and an `Empty` top-level value. -/
theorem C3_serializer_amended_witness :
    Confindent.into_string
      ⟨[(['A'], .mk .Empty 0 [(['B'], .mk (.Text ['2']) 1 [])]),
        (['C'], .mk (.Text ['3']) 0 [])]⟩ =
      trim (joinNl
        ([(['A'], ConfSection.mk .Empty 0
            [(['B'], .mk (.Text ['2']) 1 [])]),
          (['C'], ConfSection.mk (.Text ['3']) 0 [])].map
          (fun kc => joinNl (specSectionLines kc.1 kc.2)))) :=
  C3_serializer_amended
    ⟨[(['A'], .mk .Empty 0 [(['B'], .mk (.Text ['2']) 1 [])]),
      (['C'], .mk (.Text ['3']) 0 [])]⟩ (by decide)

/-- C4, counterexample: on the line `"Key  V"` (two spaces between the
tokens) the claimed whitespace-run split would make the value
`Text "V"`, but the code splits at every single whitespace character, so the
second piece is the empty string between the two spaces and the parsed
value is `Text ""`. -/
theorem C4_token_split_counterexample :
    (ConfSection.parse ['K', 'e', 'y', ' ', ' ', 'V']).map
        (fun p => (p.1, p.2.value)) =
      some (['K', 'e', 'y'], ConfItem.Text []) ∧
    ConfItem.Text [] ≠ ConfItem.Text ['V'] :=
  ⟨by decide, by decide⟩

/-- C4, amended: after stripping the indentation the parser splits the rest
at every single whitespace character (adjacent separators produce empty
pieces, unlike a whitespace-run split): the first piece — possibly empty —
becomes the key, the second piece, when a separator exists, becomes the
`Text` value (`Empty` otherwise), and everything beyond the second piece is
discarded (the result depends only on the first two pieces); a blank or
indent-only line yields no event. -/
theorem C4_token_split_amended (s : Str) :
    (trimStart s ≠ [] →
      ConfSection.parse s =
        some ((indentLoop s 0).2.takeWhile (fun c => !isWs c),
          .mk
            (match (indentLoop s 0).2.dropWhile (fun c => !isWs c) with
             | [] => ConfItem.Empty
             | _ :: after => ConfItem.Text (after.takeWhile (fun c => !isWs c)))
            (indentLoop s 0).1 [])) ∧
    (trimStart s = [] → ConfSection.parse s = none) := by
  constructor
  · intro hblank
    have hsne : s ≠ [] := fun hc => hblank (by rw [hc]; rfl)
    unfold ConfSection.parse
    rw [if_neg (by simp [hblank, hsne])]
    rcases hi : indentLoop s 0 with ⟨lvl, workable⟩
    simp only
    rw [splitChar_structure isWs workable]
    rcases hd : workable.dropWhile (fun c => !isWs c) with _ | ⟨c0, after⟩
    · simp [hi, hd]
    · rw [show (List.takeWhile (fun c => !isWs c) workable ::
          match c0 :: after with
          | [] => []
          | head :: t => splitChar isWs t)
        = List.takeWhile (fun c => !isWs c) workable :: splitChar isWs after
        from rfl]
      rw [splitChar_structure isWs after]
      simp [hi, hd, ConfItem.parse]
  · intro hblank
    unfold ConfSection.parse
    rw [if_pos (by simp [hblank])]

/-- C4, witness: on `"Key  V"` the amended split yields key `Key` and value
`Text ""` with the `V` piece discarded, and the indent-only line `"\t"`
yields no event. -/
theorem C4_token_split_amended_witness :
    ConfSection.parse ['K', 'e', 'y', ' ', ' ', 'V'] =
      some ((indentLoop ['K', 'e', 'y', ' ', ' ', 'V'] 0).2.takeWhile
          (fun c => !isWs c),
        .mk
          (match (indentLoop ['K', 'e', 'y', ' ', ' ', 'V'] 0).2.dropWhile
              (fun c => !isWs c) with
           | [] => ConfItem.Empty
           | _ :: after => ConfItem.Text (after.takeWhile (fun c => !isWs c)))
          (indentLoop ['K', 'e', 'y', ' ', ' ', 'V'] 0).1 []) ∧
    ConfSection.parse ['\t'] = none :=
  ⟨(C4_token_split_amended ['K', 'e', 'y', ' ', ' ', 'V']).1 (by decide),
   (C4_token_split_amended ['\t']).2 (by decide)⟩

/-- C7: `get_vec` requires a present scalar — `Empty` gives `none`; on a
`Text` scalar it splits the text at every comma, trims each piece, converts
each through the target conversion, returns `none` exactly when some piece
fails to convert, and returns `some l` exactly when the pieces convert
elementwise to `l` — the full list, never a partial one.  Concretely,
parsing `"Vec 1,2,3,4"` and reading `Vec` through the `u8` conversion gives
`[1,2,3,4]`, while `"Vec 1,x,3"` gives no value. -/
theorem C7_get_vec_all_or_nothing :
    (∀ (α : Type) (conv : Str → Option α) (sec : ConfSection),
      (sec.value = .Empty → ConfSection.get_vec conv sec = none) ∧
      (∀ x : Str, sec.value = .Text x →
        (ConfSection.get_vec conv sec = none ↔
          ∃ p ∈ splitChar (fun c => c = ',') x, conv (trim p) = none) ∧
        (∀ l : List α, ConfSection.get_vec conv sec = some l ↔
          (splitChar (fun c => c = ',') x).map (fun p => conv (trim p)) =
            l.map some))) ∧
    (lookupKey ['V', 'e', 'c']
        (Confindent.from_str
          ['V', 'e', 'c', ' ', '1', ',', '2', ',', '3', ',', '4']).sections).map
      (ConfSection.get_vec parseU8) = some (some [1, 2, 3, 4]) ∧
    (lookupKey ['V', 'e', 'c']
        (Confindent.from_str
          ['V', 'e', 'c', ' ', '1', ',', 'x', ',', '3']).sections).map
      (ConfSection.get_vec parseU8) = some none := by
  refine ⟨?_, by decide, by decide⟩
  intro α conv sec
  obtain ⟨val, lvl, ch⟩ := sec
  constructor
  · intro hv
    simp only [value_mk] at hv
    subst hv
    rfl
  · intro x hv
    simp only [value_mk] at hv
    subst hv
    have hg : ConfSection.get_vec conv (.mk (.Text x) lvl ch) =
        optionsAll ((splitChar (fun c => c = ',') x).map
          (fun p => conv (trim p))) := rfl
    constructor
    · rw [hg, optionsAll_eq_none_iff]
      constructor
      · intro hm
        obtain ⟨p, hp, he⟩ := List.mem_map.1 hm
        exact ⟨p, hp, he⟩
      · intro ⟨p, hp, he⟩
        exact List.mem_map.2 ⟨p, hp, he⟩
    · intro l
      rw [hg, optionsAll_eq_some_iff]

/-- C7, witness: the generic characterization applied to the concrete
section `Text "1,2"` read through the `u8` conversion yields `[1, 2]`, and
to an `Empty` section yields `none`. -/
theorem C7_get_vec_all_or_nothing_witness :
    ConfSection.get_vec parseU8 (.mk (.Text ['1', ',', '2']) 0 []) =
      some [1, 2] ∧
    ConfSection.get_vec parseU8 (.mk .Empty 0 []) = none :=
  ⟨((C7_get_vec_all_or_nothing.1 Nat parseU8
        (.mk (.Text ['1', ',', '2']) 0 [])).2 ['1', ',', '2']
      (by decide)).2 [1, 2] |>.2 (by decide),
   (C7_get_vec_all_or_nothing.1 Nat parseU8 (.mk .Empty 0 [])).1 (by decide)⟩
